import Mathlib

/-!
Verification of the TRPO training scripts of this repository
(`pendulum/trpo/train.py`, `pendulum/tnpg/train.py`, `mujoco/trpo/model.py`).

Numeric values are modelled by `ℚ` (exact arithmetic in place of IEEE
floats), flat parameter vectors by `List ℚ`.  Helper functions that live in
the repository's `utils.py` (not among the provided source files) are either
modelled from the spec (`get_returns`, `conjugate_gradient`) or abstracted as
function parameters (`surrogate_loss`, `kl_divergence`, the Fisher-vector
product and the float `sqrt` primitive), as noted on each definition.
-/

/-- Elementwise sum of two flat vectors (`params + t * maximal_step`). -/
def addV (a b : List ℚ) : List ℚ := List.zipWith (· + ·) a b

/-- Elementwise difference of two flat vectors. -/
def subV (a b : List ℚ) : List ℚ := List.zipWith (· - ·) a b

/-- Scalar times vector (`t * maximal_step`). -/
def smulV (t : ℚ) (v : List ℚ) : List ℚ := v.map (fun x => t * x)

/-- Dot product of two flat vectors. -/
def dotV (a b : List ℚ) : ℚ := (List.zipWith (· * ·) a b).sum

/-- Observables of one backtracking attempt of `train_model`
(`pendulum/trpo/train.py` lines 84-111): the scale `t` used for the
candidate write, the computed `improve_condition`, and the mean KL value
tested against `max_kl`. -/
structure LSRec where
  t : ℚ
  cond : ℚ
  klv : ℚ
deriving DecidableEq, Repr

/-- Outcome of the backtracking line search of `train_model`
(`pendulum/trpo/train.py` lines 79-115): the live actor's flat parameters
when the procedure returns, the `flag` telling whether some attempt was
accepted, whether the non-fatal `policy update does not impove the
surrogate` message was printed, and the per-attempt trace. -/
structure LSResult where
  params : List ℚ
  flag : Bool
  notImprovedReported : Bool
  trace : List LSRec
deriving DecidableEq, Repr

/-- The acceptance test of the line search, `pendulum/trpo/train.py`
line 106: `kl < args.max_kl and improve_condition > alpha` with
`alpha = 0.5`. -/
def acceptsP (maxKl : ℚ) (r : LSRec) : Prop := r.klv < maxKl ∧ 1 / 2 < r.cond

instance (maxKl : ℚ) (r : LSRec) : Decidable (acceptsP maxKl r) := by
  unfold acceptsP
  infer_instance

/-- The backtracking loop of `train_model`, `pendulum/trpo/train.py` lines
79-115, one recursive call per `for i in range(10)` iteration.

* `loss` abstracts `surrogate_loss(actor, returns, states, old_policy, actions)`
  (defined in the repository's `utils.py`, not among the provided sources) as
  a function of the live actor's flat parameters; returns, states, actions
  and the detached old log-probabilities are fixed for the whole search.
* `klf` abstracts `kl_divergence(new_actor=actor, old_actor=old_actor,
  states=states).mean()` as a function of the candidate parameters; the
  snapshot `old_actor` and the states are fixed.
* `params` is the snapshot `flat_params(actor)` taken before the loop (also
  written into `old_actor`), `step` is `maximal_step`, `oldLoss` is
  `actor_loss`, and the `ℚ` state arguments are the loop variables `t` and
  `expected_improve` (note the source mutates `expected_improve *= t` every
  attempt).  On fuel exhaustion (`flag` still false after the 10 attempts)
  the source reverts the live actor to `flat_params(old_actor)` and prints
  the non-fatal message. -/
def lsLoop (loss klf : List ℚ → ℚ) (maxKl : ℚ) (params step : List ℚ) (oldLoss : ℚ) :
    ℕ → ℚ → ℚ → List LSRec → LSResult
  | 0, _, _, acc =>
      { params := params, flag := false, notImprovedReported := true, trace := acc }
  | fuel + 1, t, e, acc =>
      let newParams := addV params (smulV t step)
      let newLoss := loss newParams
      let e2 := e * t
      let cond := (newLoss - oldLoss) / e2
      let klv := klf newParams
      if klv < maxKl ∧ 1 / 2 < cond then
        { params := newParams, flag := true, notImprovedReported := false,
          trace := acc ++ [{ t := t, cond := cond, klv := klv }] }
      else
        lsLoop loss klf maxKl params step oldLoss fuel (t * (1 / 2)) e2
          (acc ++ [{ t := t, cond := cond, klv := klv }])

/-- Steps 4 of `train_model` (`pendulum/trpo/train.py` lines 67-115): the
whole backtracking line search, entered with `t = 1.0`, with
`expected_improve` initially the dot product of the surrogate gradient with
the maximal step (`e0`), and an empty trace. -/
def lineSearch (loss klf : List ℚ → ℚ) (maxKl : ℚ) (params step : List ℚ)
    (oldLoss e0 : ℚ) : LSResult :=
  lsLoop loss klf maxKl params step oldLoss 10 1 e0 []

/-- Exponent of the cumulative shrink factor carried by `expected_improve`
when attempt `j` (0-indexed) begins: `preExp 0 = 0` and
`preExp (j+1) = preExp j + j`, so `preExp (j+1) = j*(j+1)/2` is the exponent
used in attempt `j`'s denominator. -/
def preExp : ℕ → ℕ
  | 0 => 0
  | j + 1 => preExp j + j

/-- Candidate parameters written at attempt `j`:
`params + 0.5^j * maximal_step`. -/
def lsCand (params step : List ℚ) (j : ℕ) : List ℚ :=
  addV params (smulV (((1 : ℚ) / 2) ^ j) step)

/-- The record produced by attempt `j` of the backtracking loop, written in
closed form: scale `0.5^j`, ratio with denominator
`e0 * 0.5^(preExp (j+1))` (the source multiplies `expected_improve` in place
by `t` at every attempt), and the abstract mean KL at the candidate. -/
def lsRecAt (loss klf : List ℚ → ℚ) (params step : List ℚ) (oldLoss e0 : ℚ)
    (j : ℕ) : LSRec :=
  { t := ((1 : ℚ) / 2) ^ j
  , cond := (loss (lsCand params step j) - oldLoss) / (e0 * ((1 : ℚ) / 2) ^ preExp (j + 1))
  , klv := klf (lsCand params step j) }

/-- Concrete surrogate-loss instance used in counterexamples and witnesses:
the sum of the parameter vector. -/
def lossC (v : List ℚ) : ℚ := v.sum

/-- Concrete mean-KL instance used in counterexamples and witnesses:
constantly 1, so with `max_kl = 0` no attempt is ever accepted. -/
def klfC (_v : List ℚ) : ℚ := 1

/-- Faults named by the spec's error-handling design (§7). -/
inductive UpdateFault where
  | numericalInstability
deriving DecidableEq, Repr

/-- Whether an `Except` result is a success. -/
def isOkE {α : Type} : Except UpdateFault α → Bool
  | .ok _ => true
  | .error _ => false

/-- Step 3 of `train_model`, `pendulum/trpo/train.py` lines 60-63:
`sHs = 0.5 * (search_dir * hessian_vector_product(actor, states, search_dir)).sum()`,
`step_size = torch.sqrt(2 * args.max_kl / sHs)`,
`maximal_step = step_size * search_dir`.
`hvp` abstracts `hessian_vector_product(actor, states, ·)` (defined in the
repository's `utils.py`, not among the provided sources) and `sqrtF`
abstracts the float square-root primitive.  The source contains no branch at
all here: it returns the pair `(step_size, maximal_step)` unconditionally,
whatever the sign of `sHs`. -/
def computeMaximalStep (sqrtF : ℚ → ℚ) (hvp : List ℚ → List ℚ) (maxKl : ℚ)
    (searchDir : List ℚ) : Except UpdateFault (ℚ × List ℚ) :=
  let sHs := 1 / 2 * dotV searchDir (hvp searchDir)
  let stepSize := sqrtF (2 * maxKl / sHs)
  Except.ok (stepSize, smulV stepSize searchDir)

/-- Concrete Fisher-vector-product instance with negative curvature, used by
the C4 counterexample: it negates the vector, so `sHs = -‖v‖²/2 < 0` for any
nonzero `v`. -/
def hvpNeg (v : List ℚ) : List ℚ := v.map (fun x => -x)

/-- Backward scan underlying `get_returns`, on the list of
`(reward, mask)` pairs: returns the pair of the final `running` value and
the per-timestep returns list. -/
def returnsAux (gamma : ℚ) : List (ℚ × ℚ) → ℚ × List ℚ
  | [] => (0, [])
  | (r, m) :: rest =>
      let p := returnsAux gamma rest
      (r + gamma * p.1 * m, (r + gamma * p.1 * m) :: p.2)

/-- Modelled from the spec: `get_returns(rewards, masks, gamma)` lives in the
repository's `utils.py`, which is not among the provided source files (only
its call site `pendulum/trpo/train.py` line 43 is).  Spec §4.3: a single
backward pass with `running = reward[t] + discount * running * mask[t]` and
`returns[t] = running` after each step, `running` starting at 0, no
normalization or baseline subtraction. -/
def get_returns (rewards masks : List ℚ) (gamma : ℚ) : List ℚ :=
  (returnsAux gamma (rewards.zip masks)).2

/-- One linear layer `W x + b`, row by row, as computed by
`nn.Linear`: row `i` of the output is `dot(W[i], x) + b[i]`. -/
def linearLayer (W : List (List ℚ)) (b : List ℚ) (x : List ℚ) : List ℚ :=
  List.zipWith (fun row bi => dotV row x + bi) W b

/-- Weights and biases of the three `nn.Linear` layers of
`mujoco/trpo/model.py`'s `Actor`. -/
structure ActorNet where
  fc1W : List (List ℚ)
  fc1b : List ℚ
  fc2W : List (List ℚ)
  fc2b : List ℚ
  fc3W : List (List ℚ)
  fc3b : List ℚ
deriving DecidableEq, Repr

/-- `Actor.forward` from `mujoco/trpo/model.py` lines 13-19, on a batch of
states: `x = tanh(fc1(x))`, `x = tanh(fc2(x))`, `mu = fc3(x)`,
`logstd = torch.zeros_like(mu)`, `std = torch.exp(logstd)`; returns
`(mu, std)`.  `tanhF` and `expF` abstract the float `tanh` and `exp`
primitives. -/
def Actor.forward (tanhF expF : ℚ → ℚ) (net : ActorNet) (xs : List (List ℚ)) :
    List (List ℚ) × List (List ℚ) :=
  let mus := xs.map (fun x =>
    linearLayer net.fc3W net.fc3b
      ((linearLayer net.fc2W net.fc2b
        ((linearLayer net.fc1W net.fc1b x).map tanhF)).map tanhF))
  let logstds := mus.map (fun mu => mu.map (fun _ => (0 : ℚ)))
  let stds := logstds.map (fun row => row.map expF)
  (mus, stds)

/-- Concrete one-dimensional network used by the C6 witness. -/
def netC : ActorNet :=
  { fc1W := [[1]], fc1b := [0], fc2W := [[1]], fc2b := [0],
    fc3W := [[1]], fc3b := [0] }

/-- State of the trajectory-collection loop of `main`
(`pendulum/trpo/train.py` lines 139-167 / `pendulum/tnpg/train.py` lines
79-106): the global episode counter `episodes`, the per-iteration step
counter `steps`, the per-iteration batch (each transition reduced to its
`(reward, mask)` pair), and the `recent_rewards` deque. -/
structure CState where
  k : ℕ
  steps : ℕ
  trajs : List (ℚ × ℕ)
  recent : List ℚ
deriving DecidableEq, Repr

/-- `recent_rewards.append(score)` for a `deque(maxlen=100)`: append and
keep only the most recent 100 entries. -/
def pushRecent (rec : List ℚ) (s : ℚ) : List ℚ :=
  let r := rec ++ [s]
  r.drop (r.length - 100)

/-- All scores appended to `recent_rewards` during one episode, in order. -/
def pushScores (rec : List ℚ) (ss : List ℚ) : List ℚ := ss.foldl pushRecent rec

/-- The `while steps < args.total_sample_size` collection loop of `main`,
one recursive call per episode.  `ep k` is the list of `(reward, mask)`
transitions recorded during global episode `k` (one per environment step,
so `steps` grows by `(ep k).length`), and `sc k` the scores appended to
`recent_rewards` during that episode.  The fuel argument only ensures
termination in Lean; with every episode at least one step long, fuel
`quota` is enough to reach the loop's real exit condition
`steps >= quota`. -/
def collect (quota : ℕ) (ep : ℕ → List (ℚ × ℕ)) (sc : ℕ → List ℚ) :
    ℕ → CState → CState
  | 0, s => s
  | fuel + 1, s =>
      if s.steps < quota then
        collect quota ep sc fuel
          { k := s.k + 1
          , steps := s.steps + (ep s.k).length
          , trajs := s.trajs ++ ep s.k
          , recent := pushScores s.recent (sc s.k) }
      else s

/-- One iteration's trajectory collection, started as in the source with
`trajectories = deque()` and `steps = 0`. -/
def collectRun (quota : ℕ) (ep : ℕ → List (ℚ × ℕ)) (sc : ℕ → List ℚ)
    (k0 : ℕ) (rec0 : List ℚ) : CState :=
  collect quota ep sc quota { k := k0, steps := 0, trajs := [], recent := rec0 }

/-- Total number of environment steps in episodes `k0, …, k0+n-1`. -/
def sumLen (ep : ℕ → List (ℚ × ℕ)) (k0 : ℕ) : ℕ → ℕ
  | 0 => 0
  | n + 1 => (ep k0).length + sumLen ep (k0 + 1) n

/-- Concatenation of the transition lists of episodes `k0, …, k0+n-1`. -/
def epConcat (ep : ℕ → List (ℚ × ℕ)) (k0 : ℕ) : ℕ → List (ℚ × ℕ)
  | 0 => []
  | n + 1 => ep k0 ++ epConcat ep (k0 + 1) n

/-- One episode of the `pendulum/trpo/train.py` inner `while not done` loop
(lines 146-166), given the episode's reward sequence: one transition per
environment step, with `mask = 0 if done else 1`, so the mask is 0 exactly
on the final step. -/
def runEpisode : List ℚ → List (ℚ × ℕ)
  | [] => []
  | r :: rest => (r, if rest.isEmpty then 0 else 1) :: runEpisode rest

/-- The trpo variant's episode transitions: `env` gives each global
episode's reward sequence (the environment and current-policy collaborators
abstracted as in spec §6). -/
def epTRPO (env : ℕ → List ℚ) (k : ℕ) : List (ℚ × ℕ) := runEpisode (env k)

/-- The trpo variant's per-episode scores: the episode ends with `done`, at
which point `recent_rewards.append(score)` records the episode's total
reward. -/
def scTRPO (env : ℕ → List ℚ) (k : ℕ) : List ℚ := [(env k).sum]

/-- One episode of the `pendulum/tnpg/train.py` inner `for _ in range(200)`
loop (lines 85-105), given the 200 environment step results `(reward, done)`
of the episode: one transition per step with `mask = 0` where `done` was
signalled, `1` otherwise; the loop never breaks, so the episode records
exactly one transition per step up to the fixed cap. -/
def epTN (e : List (ℚ × Bool)) : List (ℚ × ℕ) :=
  e.map (fun rd => (rd.1, if rd.2 then 0 else 1))

/-- The per-iteration update call of `main`: `actor.train()` followed by
exactly one `train_model(actor, trajectories, …)` on the freshly collected
batch (`pendulum/trpo/train.py` lines 173-174, `pendulum/tnpg/train.py`
lines 112-113).  `upd` abstracts `train_model`'s effect on the actor
state `σ`. -/
def iterationUpd {σ : Type} (quota : ℕ) (ep : ℕ → List (ℚ × ℕ))
    (sc : ℕ → List ℚ) (k0 : ℕ) (rec0 : List ℚ)
    (upd : List (ℚ × ℕ) → σ → σ) (s : σ) : σ :=
  upd (collectRun quota ep sc k0 rec0).trajs s

/-- The early-stop test `np.mean(recent_rewards) > args.goal_score`
(`pendulum/trpo/train.py` line 176).  `np.mean` of an empty deque is NaN
and every NaN comparison is false, hence the nonemptiness conjunct. -/
def npMeanGt (rec : List ℚ) (goal : ℚ) : Bool :=
  decide (rec ≠ [] ∧ goal < rec.sum / (rec.length : ℚ))

/-- The `for iter in range(args.max_iter_num)` loop of `main`
(`pendulum/trpo/train.py` lines 135-182, same shape in
`pendulum/tnpg/train.py` lines 75-118): collect a fresh batch, run the
update once (`train_model` does not touch `recent_rewards`, so it does not
affect this control flow), then if the rolling average exceeds the goal,
persist the parameters through the checkpoint collaborator (`torch.save`)
and `break`.  The result is `some i` when the loop saved the
checkpoint and stopped early at the end of iteration `i`, `none` when all
iterations ran. -/
def mainLoop (quota : ℕ) (ep : ℕ → List (ℚ × ℕ)) (sc : ℕ → List ℚ)
    (goal : ℚ) : ℕ → ℕ → ℕ → List ℚ → Option ℕ
  | 0, _, _, _ => none
  | rem + 1, i, k, rec =>
      let c := collectRun quota ep sc k rec
      if npMeanGt c.recent goal then some i
      else mainLoop quota ep sc goal rem (i + 1) c.k c.recent

/-- `(episodes, recent_rewards)` after `m` full iterations of the training
loop, had no early stop occurred. -/
def stateAfter (quota : ℕ) (ep : ℕ → List (ℚ × ℕ)) (sc : ℕ → List ℚ) :
    ℕ → ℕ × List ℚ
  | 0 => (0, [])
  | m + 1 =>
      let p := stateAfter quota ep sc m
      let c := collectRun quota ep sc p.1 p.2
      (c.k, c.recent)

/-- Whether the early-stop test passes at the end of iteration `m`. -/
def checkAt (quota : ℕ) (ep : ℕ → List (ℚ × ℕ)) (sc : ℕ → List ℚ)
    (goal : ℚ) (m : ℕ) : Bool :=
  npMeanGt (stateAfter quota ep sc (m + 1)).2 goal

/-- Concrete two-step-episode environment used by the C7 and C10
witnesses. -/
def envC : ℕ → List ℚ := fun _ => [1, 1]

/-- Concrete one-step-episode environment used by the C8 witness. -/
def envB : ℕ → List ℚ := fun _ => [1]

/-- State of the conjugate-gradient recursion: iterate `x`, residual `r`,
direction `p`. -/
structure CGState where
  x : List ℚ
  r : List ℚ
  p : List ℚ
deriving DecidableEq, Repr

/-- Initial conjugate-gradient state: `x = 0`, `r = g`, `p = g`. -/
def cgInit (g : List ℚ) : CGState :=
  { x := g.map (fun _ => 0), r := g, p := g }

/-- Modelled from the spec: one step of `conjugate_gradient`, which lives in
the repository's `utils.py` (not among the provided source files; only the
call sites `pendulum/trpo/train.py` line 54 and `pendulum/tnpg/train.py`
line 47 are).  Spec §4.6: `Fp` via the implicit Fisher-vector operator `A`,
`alpha = (r·r)/(p·Fp)`, `x += alpha*p`, `r_new = r - alpha*Fp`,
`beta = (r_new·r_new)/(r·r)`, `p = r_new + beta*p`. -/
def cgStep (A : List ℚ → List ℚ) (s : CGState) : CGState :=
  let Ap := A s.p
  let rr := dotV s.r s.r
  let alpha := rr / dotV s.p Ap
  let x2 := addV s.x (smulV alpha s.p)
  let r2 := subV s.r (smulV alpha Ap)
  let beta := dotV r2 r2 / rr
  { x := x2, r := r2, p := addV r2 (smulV beta s.p) }

/-- Modelled from the spec: `conjugate_gradient(actor, states, g, nsteps)`
from the repository's `utils.py` (see `cgStep`).  Spec §4.6: a fixed
iteration budget, the loop body run exactly `nsteps` times with no
residual-based early exit, returning the final iterate. -/
def conjugate_gradient (A : List ℚ → List ℚ) (g : List ℚ) (nsteps : ℕ) : List ℚ :=
  ((cgStep A)^[nsteps] (cgInit g)).x

/-- The sequence of conjugate-gradient states visited by a run with budget
`nsteps`: the initial state and the `nsteps` successive iterates. -/
def cgTrace (A : List ℚ → List ℚ) (g : List ℚ) (nsteps : ℕ) : List CGState :=
  (List.range (nsteps + 1)).map (fun i => (cgStep A)^[i] (cgInit g))

/-- The call site `pendulum/trpo/train.py` line 54:
`search_dir = conjugate_gradient(actor, states, actor_loss_grad.data, nsteps=10)`. -/
def searchDirTRPO (A : List ℚ → List ℚ) (g : List ℚ) : List ℚ :=
  conjugate_gradient A g 10

/-- The call site `pendulum/tnpg/train.py` line 47:
`step_dir = conjugate_gradient(actor, states, loss_grad.data, nsteps=10)`. -/
def stepDirTNPG (A : List ℚ → List ℚ) (g : List ℚ) : List ℚ :=
  conjugate_gradient A g 10

/-! ## Line-search characterization -/

/-- Unfolding of one backtracking attempt, with the loop variables written
in closed form: entering attempt `j` the scale is `0.5^j` and
`expected_improve` is `e0 * 0.5^(preExp j)`. -/
theorem lsLoop_succ (loss klf : List ℚ → ℚ) (maxKl : ℚ) (params step : List ℚ)
    (oldLoss e0 : ℚ) (fuel j : ℕ) (acc : List LSRec) :
    lsLoop loss klf maxKl params step oldLoss (fuel + 1) (((1 : ℚ) / 2) ^ j)
        (e0 * ((1 : ℚ) / 2) ^ preExp j) acc
      = if acceptsP maxKl (lsRecAt loss klf params step oldLoss e0 j) then
          { params := lsCand params step j, flag := true, notImprovedReported := false,
            trace := acc ++ [lsRecAt loss klf params step oldLoss e0 j] }
        else
          lsLoop loss klf maxKl params step oldLoss fuel (((1 : ℚ) / 2) ^ (j + 1))
            (e0 * ((1 : ℚ) / 2) ^ preExp (j + 1))
            (acc ++ [lsRecAt loss klf params step oldLoss e0 j]) := by
  have hrec : e0 * ((1 : ℚ) / 2) ^ preExp j * ((1 : ℚ) / 2) ^ j
      = e0 * ((1 : ℚ) / 2) ^ preExp (j + 1) := by
    show _ = e0 * ((1 : ℚ) / 2) ^ (preExp j + j)
    rw [pow_add]; ring
  have hstep : ((1 : ℚ) / 2) ^ j * (1 / 2) = ((1 : ℚ) / 2) ^ (j + 1) :=
    (pow_succ ((1 : ℚ) / 2) j).symm
  conv_lhs => rw [lsLoop]
  rw [hrec, hstep]
  simp only [acceptsP, lsRecAt, lsCand]

/-- Full characterization of the backtracking loop from attempt `j` on:
the trace extends `acc` by records `lsRecAt j, lsRecAt (j+1), …`, every
record before the last fails the acceptance test, acceptance returns the
accepted candidate parameters, and exhaustion reverts to the snapshot and
reports the non-fatal condition. -/
theorem lsLoop_char (loss klf : List ℚ → ℚ) (maxKl : ℚ) (params step : List ℚ)
    (oldLoss e0 : ℚ) :
    ∀ (fuel j : ℕ) (acc : List LSRec) (res : LSResult),
      res = lsLoop loss klf maxKl params step oldLoss fuel (((1 : ℚ) / 2) ^ j)
              (e0 * ((1 : ℚ) / 2) ^ preExp j) acc →
      ∃ m, m ≤ fuel ∧
        res.trace = acc ++ (List.range m).map
            (fun i => lsRecAt loss klf params step oldLoss e0 (j + i)) ∧
        (∀ i, i + 1 < m → ¬ acceptsP maxKl (lsRecAt loss klf params step oldLoss e0 (j + i))) ∧
        (res.flag = true →
          0 < m ∧ acceptsP maxKl (lsRecAt loss klf params step oldLoss e0 (j + (m - 1))) ∧
          res.params = lsCand params step (j + (m - 1)) ∧
          res.notImprovedReported = false) ∧
        (res.flag = false →
          m = fuel ∧
          (∀ i, i < m → ¬ acceptsP maxKl (lsRecAt loss klf params step oldLoss e0 (j + i))) ∧
          res.params = params ∧ res.notImprovedReported = true) := by
  intro fuel
  induction fuel with
  | zero =>
      intro j acc res hres
      subst hres
      exact ⟨0, le_refl 0, by simp [lsLoop], by omega, by simp [lsLoop], by simp [lsLoop]⟩
  | succ fuel ih =>
      intro j acc res hres
      rw [lsLoop_succ] at hres
      by_cases hacc : acceptsP maxKl (lsRecAt loss klf params step oldLoss e0 j)
      · rw [if_pos hacc] at hres
        subst hres
        refine ⟨1, by omega, ?_, by omega, ?_, ?_⟩
        · simp [List.range_succ]
        · intro _
          exact ⟨by omega, by simpa using hacc, by simp, rfl⟩
        · intro hflag
          simp at hflag
      · rw [if_neg hacc] at hres
        obtain ⟨m, hm, htr, hA, hB, hC⟩ := ih (j + 1)
          (acc ++ [lsRecAt loss klf params step oldLoss e0 j]) res hres
        refine ⟨m + 1, by omega, ?_, ?_, ?_, ?_⟩
        · rw [htr, List.append_assoc, List.singleton_append,
            List.range_succ_eq_map, List.map_cons, List.map_map]
          have hfun : ((fun i => lsRecAt loss klf params step oldLoss e0 (j + i)) ∘ Nat.succ)
              = fun i => lsRecAt loss klf params step oldLoss e0 (j + 1 + i) := by
            funext i
            simp only [Function.comp_apply]
            congr 1
            omega
          rw [hfun]
          simp
        · intro i hi
          match i with
          | 0 => simpa using hacc
          | i' + 1 =>
              have h := hA i' (by omega)
              have heq : j + 1 + i' = j + (i' + 1) := by omega
              rwa [heq] at h
        · intro hflag
          obtain ⟨hm0, haccm, hpar, hrep⟩ := hB hflag
          have heq : j + 1 + (m - 1) = j + (m + 1 - 1) := by omega
          rw [heq] at haccm hpar
          exact ⟨by omega, haccm, hpar, hrep⟩
        · intro hflag
          obtain ⟨hmf, hall, hpar, hrep⟩ := hC hflag
          refine ⟨by omega, ?_, hpar, hrep⟩
          intro i hi
          match i with
          | 0 => simpa using hacc
          | i' + 1 =>
              have h := hall i' (by omega)
              have heq : j + 1 + i' = j + (i' + 1) := by omega
              rwa [heq] at h

/-- Specialization of `lsLoop_char` to the `lineSearch` entry point
(`t` starts at `1.0`, `expected_improve` starts at `e0`, empty trace). -/
theorem lineSearch_char (loss klf : List ℚ → ℚ) (maxKl : ℚ) (params step : List ℚ)
    (oldLoss e0 : ℚ) :
    ∃ m, m ≤ 10 ∧
      (lineSearch loss klf maxKl params step oldLoss e0).trace
        = (List.range m).map (lsRecAt loss klf params step oldLoss e0) ∧
      (∀ i, i + 1 < m → ¬ acceptsP maxKl (lsRecAt loss klf params step oldLoss e0 i)) ∧
      ((lineSearch loss klf maxKl params step oldLoss e0).flag = true →
        0 < m ∧ acceptsP maxKl (lsRecAt loss klf params step oldLoss e0 (m - 1)) ∧
        (lineSearch loss klf maxKl params step oldLoss e0).params
          = lsCand params step (m - 1) ∧
        (lineSearch loss klf maxKl params step oldLoss e0).notImprovedReported = false) ∧
      ((lineSearch loss klf maxKl params step oldLoss e0).flag = false →
        m = 10 ∧
        (∀ i, i < m → ¬ acceptsP maxKl (lsRecAt loss klf params step oldLoss e0 i)) ∧
        (lineSearch loss klf maxKl params step oldLoss e0).params = params ∧
        (lineSearch loss klf maxKl params step oldLoss e0).notImprovedReported = true) := by
  have h0 : lineSearch loss klf maxKl params step oldLoss e0
      = lsLoop loss klf maxKl params step oldLoss 10 (((1 : ℚ) / 2) ^ 0)
          (e0 * ((1 : ℚ) / 2) ^ preExp 0) [] := by
    simp [lineSearch, preExp]
  obtain ⟨m, hm, htr, hA, hB, hC⟩ :=
    lsLoop_char loss klf maxKl params step oldLoss e0 10 0 [] _ h0
  refine ⟨m, hm, by simpa using htr, fun i hi => by simpa using hA i hi, ?_, ?_⟩
  · intro hflag
    obtain ⟨hm0, haccm, hpar, hrep⟩ := hB hflag
    exact ⟨hm0, by simpa using haccm, by simpa using hpar, hrep⟩
  · intro hflag
    obtain ⟨hmf, hall, hpar, hrep⟩ := hC hflag
    exact ⟨hmf, fun i hi => by simpa using hall i hi, hpar, hrep⟩

/-- Arithmetic identity tying the recursive cumulative exponent to its
closed form: `preExp (i+1) = i*(i+1)/2`. -/
theorem two_mul_preExp : ∀ i : ℕ, 2 * preExp (i + 1) = i * (i + 1)
  | 0 => rfl
  | i + 1 => by
      have ih := two_mul_preExp i
      show 2 * (preExp (i + 1) + (i + 1)) = (i + 1) * (i + 2)
      calc 2 * (preExp (i + 1) + (i + 1))
          = 2 * preExp (i + 1) + 2 * (i + 1) := by ring
        _ = i * (i + 1) + 2 * (i + 1) := by rw [ih]
        _ = (i + 1) * (i + 2) := by ring

/-- C1 (counterexample): in the concrete run with surrogate loss `lossC`
(sum of the parameters), constant KL 1, `max_kl = 0` (so no attempt is
accepted), snapshot `[0]`, maximal step `[1]`, old objective `0` and
`expected_improve_0 = 1`, the backtracking attempt at 0-indexed position 2
uses scale `t = 1/4` and computes the improvement ratio `2`, while the
claim's formula `(new_objective - old_objective) / (t * expected_improve_0)`
gives `(1/4 - 0) / (1/4 * 1) = 1 ≠ 2`. -/
theorem lineSearch_improve_cond_claim_counterexample :
    (lineSearch lossC klfC 0 [0] [1] 0 1).trace[2]?
        = some { t := 1 / 4, cond := 2, klv := 1 } ∧
    lossC (addV [0] (smulV ((1 : ℚ) / 4) [1])) = 1 / 4 ∧
    (2 : ℚ) ≠ ((1 : ℚ) / 4 - 0) / ((1 / 4) * 1) := by
  refine ⟨?_, ?_, ?_⟩ <;> norm_num [lineSearch, lsLoop, lossC, klfC, addV, smulV]

/-- C1 (amended): at every backtracking attempt `i` (0-indexed; the claim's
1-indexed attempt is `i+1` and its `t = 0.5^(i-1)` is `0.5^i` here), the
improvement ratio equals `(new_objective - old_objective)` divided by
`expected_improve_0 * 0.5^(i*(i+1)/2)` — the denominator carries the
cumulative product of all scales used so far, because the source executes
`expected_improve *= t` on every attempt, not the current scale
`t * expected_improve_0` alone. -/
theorem lineSearch_cond_uses_cumulative_scale (loss klf : List ℚ → ℚ) (maxKl : ℚ)
    (params step : List ℚ) (oldLoss e0 : ℚ) (i : ℕ) (r : LSRec)
    (hr : (lineSearch loss klf maxKl params step oldLoss e0).trace[i]? = some r) :
    r.t = ((1 : ℚ) / 2) ^ i ∧
    r.cond = (loss (lsCand params step i) - oldLoss)
        / (e0 * ((1 : ℚ) / 2) ^ preExp (i + 1)) ∧
    2 * preExp (i + 1) = i * (i + 1) := by
  obtain ⟨m, hm, htr, -, -, -⟩ := lineSearch_char loss klf maxKl params step oldLoss e0
  rw [htr] at hr
  by_cases hi : i < m
  · rw [List.getElem?_map, List.getElem?_range hi] at hr
    have hri : r = lsRecAt loss klf params step oldLoss e0 i := by
      exact (Option.some.inj hr).symm
    subst hri
    exact ⟨rfl, rfl, two_mul_preExp i⟩
  · rw [List.getElem?_eq_none (by simp; omega)] at hr
    exact absurd hr (by simp)

/-- C1 (witness): the amended formula evaluated at the concrete run of the
counterexample, attempt `i = 2`: ratio `2 = (1/4 - 0) / (1 * (1/2)^3)`. -/
theorem lineSearch_cond_uses_cumulative_scale_witness :
    ({ t := 1 / 4, cond := 2, klv := 1 } : LSRec).t = ((1 : ℚ) / 2) ^ 2 ∧
    ({ t := 1 / 4, cond := 2, klv := 1 } : LSRec).cond
      = (lossC (lsCand [0] [1] 2) - 0) / (1 * ((1 : ℚ) / 2) ^ preExp 3) ∧
    2 * preExp 3 = 2 * 3 :=
  lineSearch_cond_uses_cumulative_scale lossC klfC 0 [0] [1] 0 1 2 _
    (by norm_num [lineSearch, lsLoop, lossC, klfC, addV, smulV])

/-- C2: if none of the 10 backtracking attempts is accepted, the live
policy's parameters after `train_model`'s update section returns are exactly
the snapshot taken before the first candidate write (`flat_params(actor)`
copied into `old_actor`), the accept flag stays false, and the non-fatal
"surrogate not improved" condition is reported. -/
theorem lineSearch_exhaustion_reverts_params (loss klf : List ℚ → ℚ) (maxKl : ℚ)
    (params step : List ℚ) (oldLoss e0 : ℚ)
    (hall : ∀ r ∈ (lineSearch loss klf maxKl params step oldLoss e0).trace,
        ¬ acceptsP maxKl r) :
    (lineSearch loss klf maxKl params step oldLoss e0).params = params ∧
    (lineSearch loss klf maxKl params step oldLoss e0).flag = false ∧
    (lineSearch loss klf maxKl params step oldLoss e0).notImprovedReported = true := by
  obtain ⟨m, hm, htr, hA, hB, hC⟩ := lineSearch_char loss klf maxKl params step oldLoss e0
  cases hf : (lineSearch loss klf maxKl params step oldLoss e0).flag with
  | true =>
      obtain ⟨hm0, haccm, -, -⟩ := hB hf
      exact absurd haccm (hall _ (by
        rw [htr]
        exact List.mem_map_of_mem _ (List.mem_range.mpr (by omega))))
  | false =>
      obtain ⟨-, -, hpar, hrep⟩ := hC hf
      exact ⟨hpar, rfl, hrep⟩

/-- C2 (witness): the concrete all-rejected run (constant KL 1 against
`max_kl = 0`): the parameters are reverted to the snapshot `[0]` bit for
bit and the condition is reported. -/
theorem lineSearch_exhaustion_reverts_params_witness :
    (lineSearch lossC klfC 0 [0] [1] 0 1).params = [0] ∧
    (lineSearch lossC klfC 0 [0] [1] 0 1).flag = false ∧
    (lineSearch lossC klfC 0 [0] [1] 0 1).notImprovedReported = true :=
  lineSearch_exhaustion_reverts_params lossC klfC 0 [0] [1] 0 1
    (by norm_num [lineSearch, lsLoop, lossC, klfC, addV, smulV, acceptsP])

/-- C3: shape of the backtracking state machine: at most 10 attempts; the
scale of attempt `i` is `0.5^i` (so it starts at `1.0` and shrinks by
`beta = 0.5` on every retry); every attempt before the last fails the
acceptance test `kl < max_kl AND improve_ratio > alpha` (with
`alpha = 0.5`), so the search stops at the first accepted attempt; the flag
is set iff the final recorded attempt passes the test (terminal `Accepted`),
and otherwise all 10 attempts were used (terminal `Reverted`); after either
terminal outcome no further attempt is recorded. -/
theorem lineSearch_backtracking_control (loss klf : List ℚ → ℚ) (maxKl : ℚ)
    (params step : List ℚ) (oldLoss e0 : ℚ) :
    (lineSearch loss klf maxKl params step oldLoss e0).trace.length ≤ 10 ∧
    (∀ i r, (lineSearch loss klf maxKl params step oldLoss e0).trace[i]? = some r →
        r.t = ((1 : ℚ) / 2) ^ i) ∧
    (∀ i r, (lineSearch loss klf maxKl params step oldLoss e0).trace[i]? = some r →
        i + 1 < (lineSearch loss klf maxKl params step oldLoss e0).trace.length →
        ¬ acceptsP maxKl r) ∧
    ((lineSearch loss klf maxKl params step oldLoss e0).flag = true ↔
        ∃ r, (lineSearch loss klf maxKl params step oldLoss e0).trace.getLast? = some r ∧
          acceptsP maxKl r) ∧
    ((lineSearch loss klf maxKl params step oldLoss e0).flag = false →
        (lineSearch loss klf maxKl params step oldLoss e0).trace.length = 10) := by
  obtain ⟨m, hm, htr, hA, hB, hC⟩ := lineSearch_char loss klf maxKl params step oldLoss e0
  have hlen : (lineSearch loss klf maxKl params step oldLoss e0).trace.length = m := by
    rw [htr, List.length_map, List.length_range]
  refine ⟨by omega, ?_, ?_, ?_, ?_⟩
  · intro i r hr
    rw [htr] at hr
    by_cases hi : i < m
    · rw [List.getElem?_map, List.getElem?_range hi] at hr
      rw [← Option.some.inj hr]
      rfl
    · rw [List.getElem?_eq_none (by simp; omega)] at hr
      exact absurd hr (by simp)
  · intro i r hr hlt
    rw [hlen] at hlt
    rw [htr, List.getElem?_map, List.getElem?_range (by omega)] at hr
    rw [← Option.some.inj hr]
    exact hA i hlt
  · constructor
    · intro hf
      obtain ⟨hm0, haccm, -, -⟩ := hB hf
      refine ⟨lsRecAt loss klf params step oldLoss e0 (m - 1), ?_, haccm⟩
      rw [List.getLast?_eq_getElem?, hlen, htr, List.getElem?_map,
        List.getElem?_range (by omega)]
      rfl
    · intro hex
      obtain ⟨r, hr, haccr⟩ := hex
      cases hf : (lineSearch loss klf maxKl params step oldLoss e0).flag with
      | true => rfl
      | false =>
          obtain ⟨hmf, hall, -, -⟩ := hC hf
          rw [List.getLast?_eq_getElem?, hlen, htr, List.getElem?_map,
            List.getElem?_range (by omega)] at hr
          rw [← Option.some.inj hr] at haccr
          exact absurd haccr (hall (m - 1) (by omega))
  · intro hf
    obtain ⟨hmf, -, -, -⟩ := hC hf
    omega

/-- C3 (witness): the concrete all-rejected run uses all 10 attempts and
attempt 2 has scale `(1/2)^2`. -/
theorem lineSearch_backtracking_control_witness :
    (lineSearch lossC klfC 0 [0] [1] 0 1).trace.length = 10 ∧
    ({ t := 1 / 4, cond := 2, klv := 1 } : LSRec).t = ((1 : ℚ) / 2) ^ 2 := by
  have h := lineSearch_backtracking_control lossC klfC 0 [0] [1] 0 1
  refine ⟨h.2.2.2.2 ?_, h.2.1 2 _ ?_⟩ <;>
    norm_num [lineSearch, lsLoop, lossC, klfC, addV, smulV]

/-! ## C4: the trust-region scale computation has no curvature guard -/

/-- C4 (counterexample): with the negating Fisher-vector product the
curvature along `[1]` is `sHs = -1/2 ≤ 0`, yet the step-3 computation of
`train_model` neither fails with a `NumericalInstability` condition nor
skips anything: it returns a step unconditionally. -/
theorem maximalStep_no_guard_counterexample :
    1 / 2 * dotV [1] (hvpNeg [1]) ≤ (0 : ℚ) ∧
    computeMaximalStep (fun q => q) hvpNeg (1 / 100) [1]
      ≠ Except.error UpdateFault.numericalInstability ∧
    isOkE (computeMaximalStep (fun q => q) hvpNeg (1 / 100) [1]) = true := by
  refine ⟨by norm_num [dotV, hvpNeg], ?_, by norm_num [computeMaximalStep, isOkE]⟩
  simp [computeMaximalStep]

/-- C4 (amended): the step-3 computation of `train_model` performs no check
on `sHs` at all: for every input — including every `sHs ≤ 0` — it
unconditionally succeeds with `step_size = sqrt(2*max_kl/sHs)` and
`maximal_step = step_size * search_dir`; no `NumericalInstability`
condition is raised and the iteration's parameter update is not skipped
(in floating point, the square root of a negative number silently yields
NaN, which flows onward). -/
theorem maximalStep_never_raises (sqrtF : ℚ → ℚ) (hvp : List ℚ → List ℚ)
    (maxKl : ℚ) (searchDir : List ℚ) :
    computeMaximalStep sqrtF hvp maxKl searchDir
      = Except.ok (sqrtF (2 * maxKl / (1 / 2 * dotV searchDir (hvp searchDir))),
          smulV (sqrtF (2 * maxKl / (1 / 2 * dotV searchDir (hvp searchDir)))) searchDir) ∧
    isOkE (computeMaximalStep sqrtF hvp maxKl searchDir) = true :=
  ⟨rfl, rfl⟩

/-! ## C5: the return estimator -/

/-- The backward scan produces one return per transition. -/
theorem returnsAux_length (gamma : ℚ) :
    ∀ l : List (ℚ × ℚ), (returnsAux gamma l).2.length = l.length
  | [] => rfl
  | (r, m) :: rest => by
      simp [returnsAux, returnsAux_length gamma rest]

/-- The running value after the scan is the head of the returns list
(0 for an empty trajectory). -/
theorem returnsAux_fst (gamma : ℚ) :
    ∀ l : List (ℚ × ℚ), (returnsAux gamma l).1 = (returnsAux gamma l).2.getD 0 0
  | [] => rfl
  | (r, m) :: rest => by simp [returnsAux]

/-- The backward recurrence, elementwise: each return equals its reward
plus `gamma` times the next return times its mask (reading 0 past the
end, which is the scan's initial running value). -/
theorem returnsAux_getD (gamma : ℚ) :
    ∀ (l : List (ℚ × ℚ)) (t : ℕ), t < l.length →
      (returnsAux gamma l).2.getD t 0
        = (l.getD t (0, 0)).1
          + gamma * (returnsAux gamma l).2.getD (t + 1) 0 * (l.getD t (0, 0)).2
  | [], t, ht => absurd ht (by simp)
  | (r, m) :: rest, 0, _ => by
      simp [returnsAux, returnsAux_fst gamma rest]
  | (r, m) :: rest, t + 1, ht => by
      have ih := returnsAux_getD gamma rest t (by simpa using ht)
      simpa [returnsAux] using ih

/-- Indexing a zip with defaults, within bounds. -/
theorem zip_getD : ∀ (a b : List ℚ) (t : ℕ), t < a.length → t < b.length →
    (a.zip b).getD t (0, 0) = (a.getD t 0, b.getD t 0)
  | [], _, t, ha, _ => absurd ha (by simp)
  | _ :: _, [], t, _, hb => absurd hb (by simp)
  | x :: a, y :: b, 0, _, _ => by simp
  | x :: a, y :: b, t + 1, ha, hb => by
      simp only [List.zip_cons_cons, List.getD_cons_succ]
      exact zip_getD a b t (by simpa using ha) (by simpa using hb)

/-- C5: `get_returns` computes per-timestep returns by a single backward
scan with recurrence `running = reward[t] + discount * running * mask[t]`
and `returns[t] = running`: one return per transition, each return obeys
the recurrence (with the next return reading 0 past the trajectory's end),
a zero mask stops propagation (`returns[t] = reward[t]`), and in particular
rewards `[1,1,1]`, masks `[1,1,0]`, discount `1/2` yield
`[1.75, 1.5, 1.0]`. -/
theorem get_returns_backward_recurrence (rewards masks : List ℚ) (gamma : ℚ)
    (h : rewards.length = masks.length) :
    (get_returns rewards masks gamma).length = rewards.length ∧
    (∀ t, t < rewards.length →
        (get_returns rewards masks gamma).getD t 0
          = rewards.getD t 0
            + gamma * (get_returns rewards masks gamma).getD (t + 1) 0 * masks.getD t 0) ∧
    (∀ t, t < rewards.length → masks.getD t 0 = 0 →
        (get_returns rewards masks gamma).getD t 0 = rewards.getD t 0) ∧
    get_returns [1, 1, 1] [1, 1, 0] (1 / 2) = [7 / 4, 3 / 2, 1] := by
  have hlz : (rewards.zip masks).length = rewards.length := by
    rw [List.length_zip]; omega
  refine ⟨?_, ?_, ?_, ?_⟩
  · rw [get_returns, returnsAux_length, hlz]
  · intro t ht
    have h2 := returnsAux_getD gamma (rewards.zip masks) t (by omega)
    rw [zip_getD rewards masks t (by omega) (by omega)] at h2
    simpa [get_returns] using h2
  · intro t ht hm
    have h2 := returnsAux_getD gamma (rewards.zip masks) t (by omega)
    rw [zip_getD rewards masks t (by omega) (by omega)] at h2
    rw [hm] at h2
    simpa [get_returns] using h2
  · norm_num [get_returns, returnsAux]

/-- C5 (witness): the concrete trajectory of the claim. -/
theorem get_returns_backward_recurrence_witness :
    get_returns [1, 1, 1] [1, 1, 0] (1 / 2) = [7 / 4, 3 / 2, 1] :=
  (get_returns_backward_recurrence [1, 1, 1] [1, 1, 0] (1 / 2) rfl).2.2.2

/-! ## C6: the Gaussian policy's standard deviation is constant 1 -/

/-- Row count of one linear layer: one output per `(row, bias)` pair,
independent of the input vector. -/
theorem linearLayer_length (W : List (List ℚ)) (b : List ℚ) (x : List ℚ) :
    (linearLayer W b x).length = min W.length b.length := by
  simp [linearLayer, List.length_zipWith]

/-- C6: for every state batch and every value of the learned parameters,
`Actor.forward` returns a standard deviation exactly 1 in every action
dimension (`exp` of the all-zero log-std), independent of the states: the
`std` output is the constant `replicate |batch| (replicate actionDim 1)`,
where the action dimension is fixed by the third layer's shape alone.  The
only hypothesis is that the abstracted float `exp` primitive maps 0 to 1,
which IEEE `exp` does exactly. -/
theorem actor_forward_std_is_one (tanhF expF : ℚ → ℚ) (net : ActorNet)
    (xs : List (List ℚ)) (hexp : expF 0 = 1) :
    (Actor.forward tanhF expF net xs).2
      = List.replicate xs.length
          (List.replicate (min net.fc3W.length net.fc3b.length) 1) := by
  simp only [Actor.forward, List.map_map]
  calc (List.map ((fun row => row.map expF) ∘ (fun mu => mu.map fun _ => (0 : ℚ)) ∘ fun x =>
          linearLayer net.fc3W net.fc3b
            ((linearLayer net.fc2W net.fc2b
              ((linearLayer net.fc1W net.fc1b x).map tanhF)).map tanhF)) xs)
      = List.map (fun _ =>
          List.replicate (min net.fc3W.length net.fc3b.length) (1 : ℚ)) xs := by
        refine List.map_congr_left ?_
        intro x _
        simp only [Function.comp_apply, List.map_map]
        have hf : (expF ∘ fun _ => (0 : ℚ)) = fun _ : ℚ => (1 : ℚ) := by
          funext y
          simp [hexp]
        rw [hf, List.map_const', linearLayer_length]
    _ = List.replicate xs.length
          (List.replicate (min net.fc3W.length net.fc3b.length) 1) :=
        List.map_const' xs _

/-- C6 (witness): the concrete one-dimensional network on a singleton batch
returns `std = [[1]]` (with `exp` instantiated by the constant-1 function,
which satisfies `exp 0 = 1`). -/
theorem actor_forward_std_is_one_witness :
    (Actor.forward (fun q => q) (fun _ => 1) netC [[5]]).2
      = List.replicate 1 (List.replicate (min netC.fc3W.length netC.fc3b.length) 1) :=
  actor_forward_std_is_one (fun q => q) (fun _ => 1) netC [[5]] rfl

/-! ## C7 and C10: trajectory collection -/

/-- A trpo episode records one transition per step, with mask 1 on every
step except the final, environment-signalled one, which has mask 0. -/
theorem runEpisode_masks : ∀ rews : List ℚ, rews ≠ [] →
    (runEpisode rews).map Prod.snd = List.replicate (rews.length - 1) 1 ++ [0]
  | [], h => absurd rfl h
  | [r], _ => by simp [runEpisode]
  | r :: r2 :: rest, _ => by
      have ih := runEpisode_masks (r2 :: rest) (by simp)
      show ((r, if (r2 :: rest).isEmpty then 0 else 1) :: runEpisode (r2 :: rest)).map Prod.snd
          = _
      rw [List.map_cons, ih]
      simp [List.replicate_succ]

/-- Concatenating whole episodes yields one transition per step. -/
theorem length_epConcat (ep : ℕ → List (ℚ × ℕ)) :
    ∀ (n k0 : ℕ), (epConcat ep k0 n).length = sumLen ep k0 n
  | 0, _ => rfl
  | n + 1, k0 => by simp [epConcat, sumLen, length_epConcat ep n (k0 + 1)]

/-- Splitting the step total of `n+1` episodes at the last episode. -/
theorem sumLen_succ_back (ep : ℕ → List (ℚ × ℕ)) :
    ∀ (n k0 : ℕ), sumLen ep k0 (n + 1) = sumLen ep k0 n + (ep (k0 + n)).length
  | 0, k0 => by simp [sumLen]
  | n + 1, k0 => by
      show (ep k0).length + sumLen ep (k0 + 1) (n + 1)
          = (ep k0).length + sumLen ep (k0 + 1) n + (ep (k0 + (n + 1))).length
      rw [sumLen_succ_back ep n (k0 + 1)]
      have hk : k0 + 1 + n = k0 + (n + 1) := by omega
      rw [hk]
      omega

/-- Characterization of the collection loop: run some number `n` of whole
episodes, each started only while `steps` was still below the quota, and
stop as soon as the quota is reached. -/
theorem collect_char (quota : ℕ) (ep : ℕ → List (ℚ × ℕ)) (sc : ℕ → List ℚ)
    (h1 : ∀ k, 1 ≤ (ep k).length) :
    ∀ (fuel : ℕ) (s : CState), quota ≤ s.steps + fuel →
      ∃ n, (collect quota ep sc fuel s).k = s.k + n ∧
        (collect quota ep sc fuel s).steps = s.steps + sumLen ep s.k n ∧
        (collect quota ep sc fuel s).trajs = s.trajs ++ epConcat ep s.k n ∧
        quota ≤ (collect quota ep sc fuel s).steps ∧
        (∀ m, m < n → s.steps + sumLen ep s.k m < quota) := by
  intro fuel
  induction fuel with
  | zero =>
      intro s hs
      refine ⟨0, by simp [collect, sumLen], by simp [collect, sumLen],
        by simp [collect, epConcat], by simpa [collect] using hs, by omega⟩
  | succ fuel ih =>
      intro s hs
      by_cases hlt : s.steps < quota
      · have h1k := h1 s.k
        have hcol : collect quota ep sc (fuel + 1) s
            = collect quota ep sc fuel
                { k := s.k + 1, steps := s.steps + (ep s.k).length,
                  trajs := s.trajs ++ ep s.k,
                  recent := pushScores s.recent (sc s.k) } := by
          rw [collect, if_pos hlt]
        obtain ⟨n, hk, hsteps, htrajs, hq, hmin⟩ := ih
          { k := s.k + 1, steps := s.steps + (ep s.k).length,
            trajs := s.trajs ++ ep s.k,
            recent := pushScores s.recent (sc s.k) } (by simp; omega)
        refine ⟨n + 1, ?_, ?_, ?_, ?_, ?_⟩
        · rw [hcol, hk]
          simp
          omega
        · rw [hcol, hsteps]
          show _ = s.steps + ((ep s.k).length + sumLen ep (s.k + 1) n)
          simp
          omega
        · rw [hcol, htrajs]
          show _ = s.trajs ++ (ep s.k ++ epConcat ep (s.k + 1) n)
          simp
        · rw [hcol]
          exact hq
        · intro m hm
          match m with
          | 0 => simpa [sumLen] using hlt
          | m' + 1 =>
              have h2 := hmin m' (by omega)
              show s.steps + ((ep s.k).length + sumLen ep (s.k + 1) m') < quota
              simp at h2
              omega
      · refine ⟨0, ?_, ?_, ?_, ?_, by omega⟩ <;>
          rw [collect, if_neg hlt]
        · simp
        · simp [sumLen]
        · simp [epConcat]
        · omega

/-- C7: per training iteration, trajectory collection repeats whole episodes
exactly while the accumulated step count is below `total_sample_size` (the
episode count reached is the first at which the cumulative step total meets
the quota), each trpo episode runs until the environment signals `done`
(mask 0 exactly on its final transition) while each tnpg episode records
exactly one transition per step of its fixed 200-step cap, and the
update procedure is invoked exactly once, on the freshly collected batch. -/
theorem training_iteration_collection_control (quota : ℕ) (ep : ℕ → List (ℚ × ℕ))
    (sc : ℕ → List ℚ) (k0 : ℕ) (rec0 : List ℚ)
    (h1 : ∀ k, 1 ≤ (ep k).length) :
    quota ≤ (collectRun quota ep sc k0 rec0).steps ∧
    k0 ≤ (collectRun quota ep sc k0 rec0).k ∧
    (collectRun quota ep sc k0 rec0).trajs
      = epConcat ep k0 ((collectRun quota ep sc k0 rec0).k - k0) ∧
    (collectRun quota ep sc k0 rec0).steps
      = sumLen ep k0 ((collectRun quota ep sc k0 rec0).k - k0) ∧
    (∀ m, m < (collectRun quota ep sc k0 rec0).k - k0 → sumLen ep k0 m < quota) ∧
    quota ≤ sumLen ep k0 ((collectRun quota ep sc k0 rec0).k - k0) ∧
    (∀ (σ : Type) (upd : List (ℚ × ℕ) → σ → σ) (s : σ),
        iterationUpd quota ep sc k0 rec0 upd s
          = upd (collectRun quota ep sc k0 rec0).trajs s) ∧
    (∀ rews : List ℚ, rews ≠ [] →
        (runEpisode rews).map Prod.snd = List.replicate (rews.length - 1) 1 ++ [0]) ∧
    (∀ e : List (ℚ × Bool), (epTN e).length = e.length) := by
  obtain ⟨n, hk, hsteps, htrajs, hq, hmin⟩ := collect_char quota ep sc h1 quota
    { k := k0, steps := 0, trajs := [], recent := rec0 } (by simp)
  dsimp only at hk hsteps htrajs hq hmin
  have hn : (collectRun quota ep sc k0 rec0).k - k0 = n := by
    show (collect quota ep sc quota { k := k0, steps := 0, trajs := [], recent := rec0 }).k - k0 = n
    omega
  rw [hn]
  simp only [collectRun]
  refine ⟨hq, by omega, by simpa using htrajs, by simpa using hsteps, ?_, by omega,
    fun σ upd s => rfl, runEpisode_masks, fun e => by simp [epTN]⟩
  intro m hm
  simpa using hmin m hm

/-- C7 (witness): with quota 3 and two-step episodes, the collected batch
meets the quota. -/
theorem training_iteration_collection_control_witness :
    3 ≤ (collectRun 3 (epTRPO envC) (scTRPO envC) 0 []).steps :=
  (training_iteration_collection_control 3 (epTRPO envC) (scTRPO envC) 0 []
    (fun k => by norm_num [epTRPO, envC, runEpisode])).1

/-- C10: the quota is checked only between episodes: the batch handed to
`train_model` is a concatenation of whole episodes, contains at least
`total_sample_size` transitions, and exceeds the quota by strictly less
than the final episode's length. -/
theorem collection_quota_lower_bound (quota : ℕ) (ep : ℕ → List (ℚ × ℕ))
    (sc : ℕ → List ℚ) (k0 : ℕ) (rec0 : List ℚ)
    (h1 : ∀ k, 1 ≤ (ep k).length) (hq : 1 ≤ quota) :
    k0 < (collectRun quota ep sc k0 rec0).k ∧
    (collectRun quota ep sc k0 rec0).trajs
      = epConcat ep k0 ((collectRun quota ep sc k0 rec0).k - k0) ∧
    quota ≤ (collectRun quota ep sc k0 rec0).trajs.length ∧
    (collectRun quota ep sc k0 rec0).trajs.length
      < quota + (ep (k0 + ((collectRun quota ep sc k0 rec0).k - k0 - 1))).length := by
  obtain ⟨n, hk, hsteps, htrajs, hq2, hmin⟩ := collect_char quota ep sc h1 quota
    { k := k0, steps := 0, trajs := [], recent := rec0 } (by simp)
  dsimp only at hk hsteps htrajs hq2 hmin
  have hn : (collectRun quota ep sc k0 rec0).k - k0 = n := by
    show (collect quota ep sc quota { k := k0, steps := 0, trajs := [], recent := rec0 }).k - k0 = n
    omega
  have hlen : (collectRun quota ep sc k0 rec0).trajs.length = sumLen ep k0 n := by
    show (collect quota ep sc quota { k := k0, steps := 0, trajs := [], recent := rec0 }).trajs.length = _
    rw [htrajs]
    simp [length_epConcat]
  have hn1 : 1 ≤ n := by
    rcases Nat.eq_zero_or_pos n with h0 | h
    · subst h0
      rw [hsteps] at hq2
      simp [sumLen] at hq2
      omega
    · omega
  have hdec := sumLen_succ_back ep (n - 1) k0
  have hnn : n - 1 + 1 = n := by omega
  rw [hnn] at hdec
  have hlast := hmin (n - 1) (by omega)
  rw [hn]
  refine ⟨?_, ?_, by omega, by omega⟩
  · show k0 < (collect quota ep sc quota { k := k0, steps := 0, trajs := [], recent := rec0 }).k
    omega
  · show (collect quota ep sc quota { k := k0, steps := 0, trajs := [], recent := rec0 }).trajs = _
    simpa using htrajs

/-- C10 (witness): quota 3, two-step episodes: the batch has 4 ≥ 3
transitions, fewer than 3 + 2. -/
theorem collection_quota_lower_bound_witness :
    3 ≤ (collectRun 3 (epTRPO envC) (scTRPO envC) 0 []).trajs.length :=
  (collection_quota_lower_bound 3 (epTRPO envC) (scTRPO envC) 0 []
    (fun k => by norm_num [epTRPO, envC, runEpisode]) (by norm_num)).2.2.1

/-! ## C8: early termination of the training loop -/

/-- The training loop, started at iteration `m` in the state reached after
`m` full iterations, stops with a checkpoint at iteration `i` exactly when
`i` is the first iteration at or after `m` (within the remaining budget)
whose end-of-iteration rolling average exceeds the goal. -/
theorem mainLoop_some_iff (quota : ℕ) (ep : ℕ → List (ℚ × ℕ)) (sc : ℕ → List ℚ)
    (goal : ℚ) :
    ∀ (rem m i : ℕ),
      mainLoop quota ep sc goal rem m (stateAfter quota ep sc m).1
          (stateAfter quota ep sc m).2 = some i
        ↔ (m ≤ i ∧ i < m + rem ∧ checkAt quota ep sc goal i = true ∧
            ∀ j, m ≤ j → j < i → checkAt quota ep sc goal j = false) := by
  intro rem
  induction rem with
  | zero =>
      intro m i
      constructor
      · intro h
        exact absurd h (by simp [mainLoop])
      · rintro ⟨h1, h2, -, -⟩
        exfalso
        omega
  | succ rem ih =>
      intro m i
      have hcheck : npMeanGt (collectRun quota ep sc (stateAfter quota ep sc m).1
          (stateAfter quota ep sc m).2).recent goal = checkAt quota ep sc goal m := rfl
      have hk1 : (collectRun quota ep sc (stateAfter quota ep sc m).1
          (stateAfter quota ep sc m).2).k = (stateAfter quota ep sc (m + 1)).1 := rfl
      have hr1 : (collectRun quota ep sc (stateAfter quota ep sc m).1
          (stateAfter quota ep sc m).2).recent = (stateAfter quota ep sc (m + 1)).2 := rfl
      rw [mainLoop, hcheck, hk1, hr1]
      by_cases hc : checkAt quota ep sc goal m = true
      · rw [if_pos hc]
        constructor
        · intro h
          have hi : i = m := (Option.some.inj h).symm
          subst hi
          exact ⟨le_refl _, by omega, hc,
            fun j hj1 hj2 => absurd (And.intro hj1 hj2) (by omega)⟩
        · rintro ⟨h1, h2, h3, h4⟩
          rcases Nat.eq_or_lt_of_le h1 with he | hlt
          · rw [he]
          · have hf := h4 m (le_refl m) hlt
            rw [hf] at hc
            exact absurd hc (by simp)
      · have hcf : checkAt quota ep sc goal m = false := by
          revert hc
          cases checkAt quota ep sc goal m <;> simp
        rw [if_neg hc, ih (m + 1) i]
        constructor
        · rintro ⟨h1, h2, h3, h4⟩
          refine ⟨by omega, by omega, h3, ?_⟩
          intro j hj1 hj2
          rcases Nat.eq_or_lt_of_le hj1 with he | hlt2
          · rw [← he]
            exact hcf
          · exact h4 j (by omega) hj2
        · rintro ⟨h1, h2, h3, h4⟩
          have hmi : m + 1 ≤ i := by
            rcases Nat.eq_or_lt_of_le h1 with he | hlt2
            · rw [← he] at h3
              rw [h3] at hcf
              exact absurd hcf (by simp)
            · omega
          exact ⟨hmi, by omega, h3, fun j hj1 hj2 => h4 j (by omega) hj2⟩

/-- C8: the training loop, started fresh, terminates early — persisting the
policy through the checkpoint collaborator, which is what `some i` models —
exactly when the rolling average of the most recent (up to 100) episode
scores exceeds the goal at the end of iteration `i` and did not at the end
of any earlier iteration; it returns `none` (continues through all
`max_iter_num` iterations) exactly when the test never passes. -/
theorem training_loop_early_stop_iff (quota : ℕ) (ep : ℕ → List (ℚ × ℕ))
    (sc : ℕ → List ℚ) (goal : ℚ) (maxIter : ℕ) :
    (∀ i, mainLoop quota ep sc goal maxIter 0 0 [] = some i ↔
        (i < maxIter ∧ checkAt quota ep sc goal i = true ∧
          ∀ j, j < i → checkAt quota ep sc goal j = false)) ∧
    (mainLoop quota ep sc goal maxIter 0 0 [] = none ↔
        ∀ i, i < maxIter → checkAt quota ep sc goal i = false) := by
  have hbase : ∀ i, mainLoop quota ep sc goal maxIter 0 0 [] = some i ↔
      (i < maxIter ∧ checkAt quota ep sc goal i = true ∧
        ∀ j, j < i → checkAt quota ep sc goal j = false) := by
    intro i
    have h := mainLoop_some_iff quota ep sc goal maxIter 0 i
    simp only [Nat.zero_add] at h
    rw [show (stateAfter quota ep sc 0).1 = 0 from rfl,
      show (stateAfter quota ep sc 0).2 = ([] : List ℚ) from rfl] at h
    rw [h]
    constructor
    · rintro ⟨-, h2, h3, h4⟩
      exact ⟨h2, h3, fun j hj => h4 j (by omega) hj⟩
    · rintro ⟨h2, h3, h4⟩
      exact ⟨by omega, h2, h3, fun j _ hj => h4 j hj⟩
  refine ⟨hbase, ?_, ?_⟩
  · intro hnone i hi
    by_contra hph
    have hpt : checkAt quota ep sc goal i = true := by
      revert hph
      cases checkAt quota ep sc goal i <;> simp
    have hex : ∃ j, checkAt quota ep sc goal j = true := ⟨i, hpt⟩
    have hi0P := Nat.find_spec hex
    have hi0min : ∀ j, j < Nat.find hex → checkAt quota ep sc goal j = false := by
      intro j hj
      have h := Nat.find_min hex hj
      revert h
      cases checkAt quota ep sc goal j <;> simp
    have hi0lt : Nat.find hex < maxIter := lt_of_le_of_lt (Nat.find_min' hex hpt) hi
    have hsome := (hbase (Nat.find hex)).mpr ⟨hi0lt, hi0P, hi0min⟩
    rw [hnone] at hsome
    exact absurd hsome (by simp)
  · intro hall
    cases hm : mainLoop quota ep sc goal maxIter 0 0 [] with
    | none => rfl
    | some i =>
        have h := (hbase i).mp hm
        rw [hall i h.1] at h
        exact absurd h.2.1 (by simp)

/-- C8 (witness): with one-step episodes of reward 1, quota 1 and goal 0,
the rolling average 1 exceeds the goal at the end of iteration 0, so the
loop persists the parameters and stops there. -/
theorem training_loop_early_stop_iff_witness :
    mainLoop 1 (epTRPO envB) (scTRPO envB) 0 5 0 0 [] = some 0 :=
  ((training_loop_early_stop_iff 1 (epTRPO envB) (scTRPO envB) 0 5).1 0).mpr
    ⟨by norm_num, by
      norm_num [checkAt, stateAfter, collectRun, collect, epTRPO, scTRPO, envB,
        runEpisode, pushScores, pushRecent, npMeanGt],
      fun j hj => absurd hj (Nat.not_lt_zero j)⟩

/-! ## C9: fixed conjugate-gradient budget -/

/-- C9: both call sites invoke the conjugate-gradient solver with
`nsteps = 10`, and the solver always executes exactly its full fixed budget
with no residual-based early exit: a run with budget `n` visits exactly
`n + 1` states (the initial state and one per iteration), the state after
`i` iterations is the `i`-fold application of the recursion step whatever
the residual's value, and the returned direction is the final iterate. -/
theorem conjugate_gradient_fixed_budget (A : List ℚ → List ℚ) (g : List ℚ) :
    searchDirTRPO A g = conjugate_gradient A g 10 ∧
    stepDirTNPG A g = conjugate_gradient A g 10 ∧
    conjugate_gradient A g 10 = ((cgStep A)^[10] (cgInit g)).x ∧
    (∀ n, (cgTrace A g n).length = n + 1) ∧
    (∀ n i, i < n + 1 → (cgTrace A g n)[i]? = some ((cgStep A)^[i] (cgInit g))) ∧
    (∀ n, conjugate_gradient A g (n + 1) = (cgStep A ((cgStep A)^[n] (cgInit g))).x) := by
  refine ⟨rfl, rfl, rfl, ?_, ?_, ?_⟩
  · intro n
    simp [cgTrace]
  · intro n i hi
    rw [cgTrace, List.getElem?_map, List.getElem?_range hi]
    rfl
  · intro n
    rw [conjugate_gradient, Function.iterate_succ_apply']

/-- C9 (witness): the identity operator on a one-dimensional problem, budget
2: the state after one iteration is the single application of the step. -/
theorem conjugate_gradient_fixed_budget_witness :
    (cgTrace (fun v => v) [1] 2)[1]? = some ((cgStep (fun v => v))^[1] (cgInit [1])) :=
  (conjugate_gradient_fixed_budget (fun v => v) [1]).2.2.2.2.1 2 1 (by omega)
